import Mathlib

/-!
# Verification of the background-removal core of `drinkup-image`

This file is a shallow embedding, in Lean 4, of the background-removal
pipeline implemented in `src/image_processor/service.rs`
(`BackgroundRemover`): background-color sampling from the four image
corners, mask construction by RGB color distance, the border-seeded
iterative flood fill, edge feathering, and mask application.

Modelling conventions:

* A `Pixel` holds the four 8-bit channels as natural numbers (the Rust
  code stores `u8`; every value the pipeline produces stays in `0..=255`).
* An `Image` is a pair of dimensions together with a total pixel lookup
  function; the Rust `RgbaImage` is only ever read in bounds by the code
  under study.
* The mask is a `List (List Bool)` exactly like the Rust
  `Vec<Vec<bool>>`; out-of-bounds indexing, which panics in Rust, is made
  observable by `Option`-valued access (`mget?`), and the flood-fill pass
  is an `Option`-valued function that returns `none` exactly when the
  Rust code would panic (index out of bounds / `usize` subtraction
  underflow while building the edge seed list).
* The Rust `f32` arithmetic of `detect_background_color` is modelled with
  natural-number arithmetic: all channel sums are bounded by
  `100 * 255 < 2^24`, hence exactly representable in `f32`, the `f32`
  quotient is correctly rounded and therefore truncates (`as u8`) to the
  floor of the exact quotient; in the degenerate `0.0 / 0.0` case the
  Rust cast sends `NaN` to `0`, which agrees with `Nat` division `0 / 0 = 0`.
* The `f32` arithmetic of `calculate_edge_alpha` and `apply_mask` is
  modelled exactly: every inexact `f32` operation (the division
  `background_count / total_count`, the subtraction `1.0 - ratio`, and
  the product `pixel[3] as f32 * alpha`) is wrapped in `rn32`, IEEE-754
  binary32 round to nearest, ties to even, over `ℚ`.  The counts and
  `pixel[3]` themselves are integers below `2^24` and hence exact, the
  `max` with `0.0` is exact, and every value reached is `0` or lies in
  the binary32 normal range, so no subnormal or overflow case arises.
  The comparison `color_distance <= 30.0` is modelled by the exact
  equivalent `squared distance ≤ 900` (the `f32` square root is
  correctly rounded and `30.0` is representable, so `sqrt s ≤ 30` in
  `f32` holds iff `s ≤ 900` over the integers).
-/

/-- One RGBA pixel: the Rust code stores four `u8` channels. -/
structure Pixel where
  r : Nat
  g : Nat
  b : Nat
  a : Nat
deriving DecidableEq, Repr

/-- An RGBA image: dimensions plus a pixel lookup (`image.get_pixel x y`).
The Rust code never reads out of bounds, so a total lookup function is a
faithful model. -/
structure Image where
  width : Nat
  height : Nat
  pixel : Nat → Nat → Pixel

/-- The mask type: `Vec<Vec<bool>>`, row-major, `mask[y][x]`. -/
abbrev Grid := List (List Bool)

/-- Checked 2-d access `mask[y][x]`: `none` models a Rust index panic. -/
def mget? (m : Grid) (y x : Nat) : Option Bool :=
  (m[y]?).bind fun row => row[x]?

/-- 2-d update `mask[y][x] = b`.  The code only ever writes at a position
it has just successfully read, so the fallthrough (out-of-bounds) branch
returning `m` unchanged is never exercised by the pipeline. -/
def mset (m : Grid) (y x : Nat) (b : Bool) : Grid :=
  match m[y]? with
  | some row => m.set y (row.set x b)
  | none => m

/-- `let sample_size = 5.min(width / 4).min(height / 4);` -/
def sample_size (w h : Nat) : Nat :=
  min (min 5 (w / 4)) (h / 4)

/-- The corner pixels collected by `detect_background_color`, in push
order: top-left, top-right, bottom-left, bottom-right, each block `x`
outer and `y` inner, `x` over `0..s` resp. `(w-s)..w` and `y` over
`0..s` resp. `(h-s)..h`. -/
def corner_colors (img : Image) : List Pixel :=
  let w := img.width
  let h := img.height
  let s := sample_size w h
  ((List.range s).flatMap fun x => (List.range s).map fun y => img.pixel x y) ++
  ((List.range s).flatMap fun i => (List.range s).map fun y => img.pixel (w - s + i) y) ++
  ((List.range s).flatMap fun x => (List.range s).map fun j => img.pixel x (h - s + j)) ++
  ((List.range s).flatMap fun i => (List.range s).map fun j => img.pixel (w - s + i) (h - s + j))

/-- `detect_background_color`: the mean of each channel over the corner
samples, truncated (`as u8`), alpha fixed at `255`.  `Nat` division by
zero yields `0`, matching the Rust `NaN as u8 == 0` when the sample list
is empty (see the header comment for the exactness argument). -/
def detect_background_color (img : Image) : Pixel :=
  let cs := corner_colors img
  let n := cs.length
  { r := (cs.map Pixel.r).sum / n
    g := (cs.map Pixel.g).sum / n
    b := (cs.map Pixel.b).sum / n
    a := 255 }

/-- The squared RGB distance `dr*dr + dg*dg + db*db` computed by
`color_distance` before its square root. -/
def color_distance_sq (c1 c2 : Pixel) : ℤ :=
  ((c1.r : ℤ) - c2.r) ^ 2 + ((c1.g : ℤ) - c2.g) ^ 2 + ((c1.b : ℤ) - c2.b) ^ 2

/-- The test `color_distance(&pixel, &background_color) <= 30.0` of
`create_mask`, phase 1.  Squaring both sides of the correctly-rounded
`f32` comparison gives the exact integer test `dr²+dg²+db² ≤ 900`. -/
def color_close (p bg : Pixel) : Bool :=
  color_distance_sq p bg ≤ 900

/-- Phase 1 of `create_mask`: start from all-`true`, set a cell to
`false` when the pixel is within tolerance of the background color;
the net entry at `(y, x)` is therefore `¬ color_close`. -/
def create_initial_mask (img : Image) (bg : Pixel) : Grid :=
  (List.range img.height).map fun y =>
    (List.range img.width).map fun x => ! color_close (img.pixel x y) bg

/-- Bounds test `new_x >= 0 && new_x < width && new_y >= 0 && new_y < height`
(after the `i32` casts in the Rust code). -/
def in_bounds (w h : Nat) (nx ny : ℤ) : Prop :=
  0 ≤ nx ∧ nx < (w : ℤ) ∧ 0 ≤ ny ∧ ny < (h : ℤ)

instance (w h : Nat) (nx ny : ℤ) : Decidable (in_bounds w h nx ny) := by
  unfold in_bounds; infer_instance

/-- One direction `(dx, dy)` of the neighbour scan of
`flood_fill_iterative`: bounds check, then `!visited && !mask`
(short-circuit: the mask cell is only read when the visited cell is
`false`).  Returns the (at most one) cell to push. -/
def nbr_step (w h : Nat) (mask visited : Grid) (x y : Nat) (d : ℤ × ℤ) :
    Option (List (Nat × Nat)) :=
  let nx : ℤ := (x : ℤ) + d.1
  let ny : ℤ := (y : ℤ) + d.2
  if in_bounds w h nx ny then
    match mget? visited ny.toNat nx.toNat with
    | none => none
    | some v =>
      if v then some []
      else
        match mget? mask ny.toNat nx.toNat with
        | none => none
        | some mb => some (if mb then [] else [(nx.toNat, ny.toNat)])
  else some []

/-- The four pushes of `flood_fill_iterative` for directions
`[(0,1), (1,0), (0,-1), (-1,0)]`, in push order; the head of the result
is the top of the stack (the last direction pushed). -/
def nbrs (w h : Nat) (mask visited : Grid) (x y : Nat) :
    Option (List (Nat × Nat)) :=
  match nbr_step w h mask visited x y (0, 1) with
  | none => none
  | some l1 =>
    match nbr_step w h mask visited x y (1, 0) with
    | none => none
    | some l2 =>
      match nbr_step w h mask visited x y (0, -1) with
      | none => none
      | some l3 =>
        match nbr_step w h mask visited x y (-1, 0) with
        | none => none
        | some l4 => some (l4 ++ l3 ++ l2 ++ l1)

/-- The `while let Some((x, y)) = stack.pop()` loop of
`flood_fill_iterative`, with the stack as a list whose head is the top.
`fuel` bounds the number of iterations; the code always terminates, and
every concrete run below is given enough fuel never to exhaust it. -/
def flood_iter (w h : Nat) : Nat → Grid → Grid → List (Nat × Nat) → Option (Grid × Grid)
  | _, mask, visited, [] => some (mask, visited)
  | 0, _, _, _ :: _ => none
  | fuel + 1, mask, visited, (x, y) :: rest =>
    match mget? visited y x with
    | none => none
    | some v =>
      if v then flood_iter w h fuel mask visited rest
      else
        match mget? mask y x with
        | none => none
        | some mb =>
          if mb then flood_iter w h fuel mask visited rest
          else
            let visited1 := mset visited y x true
            let mask1 := mset mask y x false
            match nbrs w h mask1 visited1 x y with
            | none => none
            | some adds => flood_iter w h fuel mask1 visited1 (adds ++ rest)

/-- Fuel that no run of `flood_fill_iterative` on a `w × h` grid can
exhaust (each call pops at most `1 + 4·w·h` cells). -/
def flood_fuel (w h : Nat) : Nat :=
  5 * (w * h) + 5

/-- The seed loop of `flood_fill_background`:
`if !visited[y][x] && !mask[y][x] { flood_fill_iterative(...) }` for each
edge cell, threading the visited grid across seeds. -/
def flood_seeds (w h : Nat) : Grid → Grid → List (Nat × Nat) → Option Grid
  | mask, _, [] => some mask
  | mask, visited, (x, y) :: rest =>
    match mget? visited y x with
    | none => none
    | some v =>
      if v then flood_seeds w h mask visited rest
      else
        match mget? mask y x with
        | none => none
        | some mb =>
          if mb then flood_seeds w h mask visited rest
          else
            match flood_iter w h (flood_fuel w h) mask visited [(x, y)] with
            | none => none
            | some (mask1, visited1) => flood_seeds w h mask1 visited1 rest

/-- The edge seed list of `flood_fill_background`: top, bottom, left,
right, concatenated in that order.  Building the bottom (resp. right)
edge evaluates `height - 1` (resp. `width - 1`) inside a `map` over
`0..width` (resp. `0..height`); when that range is non-empty and the
dimension is `0` the Rust `usize` subtraction underflows (a panic in
debug, a guaranteed out-of-bounds index in release), modelled by `none`. -/
def edge_seeds (w h : Nat) : Option (List (Nat × Nat)) :=
  let top := (List.range w).map fun x => (x, 0)
  let left := (List.range h).map fun y => (0, y)
  match (if w = 0 then some [] else if h = 0 then none
         else some ((List.range w).map fun x => (x, h - 1))) with
  | none => none
  | some bottom =>
    match (if h = 0 then some [] else if w = 0 then none
           else some ((List.range h).map fun y => (w - 1, y))) with
    | none => none
    | some right => some (top ++ bottom ++ left ++ right)

/-- `flood_fill_background`: fresh all-`false` visited grid, then the
seed loop over the four edges. -/
def flood_fill_background (mask : Grid) (w h : Nat) : Option Grid :=
  let visited := List.replicate h (List.replicate w false)
  match edge_seeds w h with
  | none => none
  | some seeds => flood_seeds w h mask visited seeds

/-- `create_mask`: phase-1 classification followed by the flood-fill
correction pass. -/
def create_mask (img : Image) (bg : Pixel) : Option Grid :=
  flood_fill_background (create_initial_mask img bg) img.width img.height

/-- The body of the window scan of `calculate_edge_alpha` for
`total_count`: the Rust loops run `dy` (outer) and `dx` (inner) over
`-2..=2`; here they are reindexed to `0..5` with the offset written as
`dj - 2`. -/
def total_count (w h x y : Nat) : Nat :=
  ((List.range 5).map fun dy =>
    ((List.range 5).map fun dx =>
      if in_bounds w h ((x : ℤ) + ((dx : ℤ) - 2)) ((y : ℤ) + ((dy : ℤ) - 2))
      then 1 else 0).sum).sum

/-- The `background_count` of the same scan: an in-bounds window cell
whose mask entry is `false`. -/
def background_count (mask : Nat → Nat → Bool) (w h x y : Nat) : Nat :=
  ((List.range 5).map fun dy =>
    ((List.range 5).map fun dx =>
      if in_bounds w h ((x : ℤ) + ((dx : ℤ) - 2)) ((y : ℤ) + ((dy : ℤ) - 2)) ∧
         mask ((y : ℤ) + ((dy : ℤ) - 2)).toNat ((x : ℤ) + ((dx : ℤ) - 2)).toNat = false
      then 1 else 0).sum).sum

/-- Round a rational to an integer, ties to even (the integer-level
rounding underlying IEEE-754 round to nearest even). -/
def rne (q : ℚ) : ℤ :=
  if q - (⌊q⌋ : ℚ) < 1 / 2 then ⌊q⌋
  else if 1 / 2 < q - (⌊q⌋ : ℚ) then ⌊q⌋ + 1
  else if 2 ∣ ⌊q⌋ then ⌊q⌋ else ⌊q⌋ + 1

/-- IEEE-754 binary32 round to nearest, ties to even, as an exact map
on `ℚ` for non-negative values in the normal range (the only values
this pipeline produces): scale into `[2^23, 2^24)`, round the 24-bit
significand with ties to even, scale back.  Zero (and the unreachable
negative case) maps to zero. -/
def rn32 (q : ℚ) : ℚ :=
  if 0 < q then
    ((rne (q / 2 ^ (Int.log 2 q - 23)) : ℤ) : ℚ) * 2 ^ (Int.log 2 q - 23)
  else 0

/-- `calculate_edge_alpha`, with each inexact `f32` step made explicit:
`0.0` for a background centre, `1.0` when the window is empty (never
the case for an in-bounds centre), else
`(1.0 - background_ratio).max(0.0)` where the division producing
`background_ratio` and the subtraction are binary32-rounded (`rn32`);
the counts themselves are exact in `f32` and the `max` is exact.  The
mask is abstracted to a total function `mask y x`; all accesses in the
Rust function are bounds-checked against `w`, `h` first. -/
def calculate_edge_alpha (mask : Nat → Nat → Bool) (x y w h : Nat) : ℚ :=
  if mask y x = false then 0
  else
    let tc := total_count w h x y
    let bc := background_count mask w h x y
    if tc = 0 then 1
    else max (rn32 (1 - rn32 ((bc : ℚ) / (tc : ℚ)))) 0

/-- The Rust saturating cast `q as u8` for a (non-`NaN`) `f32` value
`q`: truncation toward zero, clamped into `0..=255`. -/
def f32_to_u8 (q : ℚ) : Nat :=
  if q < 0 then 0 else min 255 (Int.toNat ⌊q⌋)

/-- `apply_mask`: copy each pixel; a background cell gets alpha `0`, a
foreground cell gets `((pixel[3] as f32) * alpha) as u8` with `alpha`
from `calculate_edge_alpha`; the `f32` product is binary32-rounded
(`rn32`) before the truncating cast (`pixel[3] as f32` itself is exact,
the alpha being at most `255 < 2^24`). -/
def apply_mask (img : Image) (mask : Nat → Nat → Bool) : Image :=
  { width := img.width
    height := img.height
    pixel := fun x y =>
      let p := img.pixel x y
      if mask y x = false then { r := p.r, g := p.g, b := p.b, a := 0 }
      else
        { r := p.r, g := p.g, b := p.b
          a := f32_to_u8 (rn32 ((p.a : ℚ) *
            calculate_edge_alpha mask x y img.width img.height)) } }

/-- View of a completed mask grid as the lookup function consumed by
`apply_mask`; within bounds the default is never used. -/
def mask_fn (m : Grid) : Nat → Nat → Bool := fun y x =>
  (m.getD y []).getD x false

/-- `remove_background`: detect the background color, build the mask,
apply it.  `none` captures the panic cases of the flood fill on
degenerate geometry. -/
def remove_background (img : Image) : Option Image :=
  match create_mask img (detect_background_color img) with
  | none => none
  | some mask => some (apply_mask img (mask_fn mask))

/-- Spec-side description of the feathering window: the offsets
`(dy, dx)` of the `(2R+1) × (2R+1)` window of radius `R = 2` centred at
`(x, y)` whose cell lies inside the image. -/
def window_cells (w h x y : Nat) : Finset (ℤ × ℤ) :=
  (Finset.Icc (-2 : ℤ) 2 ×ˢ Finset.Icc (-2 : ℤ) 2).filter fun d =>
    in_bounds w h ((x : ℤ) + d.2) ((y : ℤ) + d.1)

/-- Spec-side description of the background cells of that window. -/
def window_bg_cells (mask : Nat → Nat → Bool) (w h x y : Nat) : Finset (ℤ × ℤ) :=
  (Finset.Icc (-2 : ℤ) 2 ×ˢ Finset.Icc (-2 : ℤ) 2).filter fun d =>
    in_bounds w h ((x : ℤ) + d.2) ((y : ℤ) + d.1) ∧
      mask ((y : ℤ) + d.1).toNat ((x : ℤ) + d.2).toNat = false

/-! ## Helper lemmas: the flood-fill pass never changes the mask -/

theorem list_set_self {α : Type} (l : List α) (n : Nat) (a : α)
    (h : l[n]? = some a) : l.set n a = l := by
  induction l generalizing n with
  | nil => simp at h
  | cons hd tl ih =>
    cases n with
    | zero => simp at h; simp [h]
    | succ n => simp at h; simp [ih n h]

theorem mset_self (m : Grid) (y x : Nat) (b : Bool)
    (h : mget? m y x = some b) : mset m y x b = m := by
  unfold mget? at h
  unfold mset
  cases hy : m[y]? with
  | none => rfl
  | some row =>
    rw [hy] at h
    simp only [Option.some_bind] at h
    show m.set y (row.set x b) = m
    rw [list_set_self row x b h, list_set_self m y row hy]

theorem nbr_step_sound {w h : Nat} {mask visited : Grid} {x y : Nat}
    {d : ℤ × ℤ} {l : List (Nat × Nat)}
    (hs : nbr_step w h mask visited x y d = some l) :
    ∀ p ∈ l, mget? mask p.2 p.1 = some false := by
  unfold nbr_step at hs
  by_cases hb : in_bounds w h ((x : ℤ) + d.1) ((y : ℤ) + d.2)
  · simp only [hb, if_true] at hs
    cases hv : mget? visited ((y : ℤ) + d.2).toNat ((x : ℤ) + d.1).toNat with
    | none => rw [hv] at hs; simp at hs
    | some v =>
      rw [hv] at hs
      by_cases hvv : v
      · simp [hvv] at hs; subst hs; intro p hp; simp at hp
      · simp only [hvv, if_false, Bool.false_eq_true] at hs
        cases hm : mget? mask ((y : ℤ) + d.2).toNat ((x : ℤ) + d.1).toNat with
        | none => rw [hm] at hs; simp at hs
        | some mb =>
          rw [hm] at hs
          by_cases hmb : mb
          · simp [hmb] at hs; subst hs; intro p hp; simp at hp
          · simp only [hmb, if_false, Bool.false_eq_true] at hs
            simp only [Option.some.injEq] at hs
            subst hs
            intro p hp
            simp only [List.mem_singleton] at hp
            subst hp
            simp only []
            rw [hm]
            simp only [Bool.not_eq_true] at hmb
            rw [hmb]
  · simp only [hb, if_false] at hs
    simp only [Option.some.injEq] at hs
    subst hs
    intro p hp
    simp at hp

theorem nbrs_sound {w h : Nat} {mask visited : Grid} {x y : Nat}
    {l : List (Nat × Nat)} (hs : nbrs w h mask visited x y = some l) :
    ∀ p ∈ l, mget? mask p.2 p.1 = some false := by
  unfold nbrs at hs
  cases h1 : nbr_step w h mask visited x y (0, 1) with
  | none => rw [h1] at hs; simp at hs
  | some l1 =>
    rw [h1] at hs
    cases h2 : nbr_step w h mask visited x y (1, 0) with
    | none => rw [h2] at hs; simp at hs
    | some l2 =>
      rw [h2] at hs
      cases h3 : nbr_step w h mask visited x y (0, -1) with
      | none => rw [h3] at hs; simp at hs
      | some l3 =>
        rw [h3] at hs
        cases h4 : nbr_step w h mask visited x y (-1, 0) with
        | none => rw [h4] at hs; simp at hs
        | some l4 =>
          rw [h4] at hs
          simp only [Option.some.injEq] at hs
          subst hs
          intro p hp
          simp only [List.mem_append] at hp
          rcases hp with ((hp | hp) | hp) | hp
          · exact nbr_step_sound h4 p hp
          · exact nbr_step_sound h3 p hp
          · exact nbr_step_sound h2 p hp
          · exact nbr_step_sound h1 p hp

theorem flood_iter_mask_eq {w h : Nat} : ∀ (fuel : Nat) (mask visited : Grid)
    (stack : List (Nat × Nat)) (res : Grid × Grid),
    (∀ p ∈ stack, mget? mask p.2 p.1 = some false) →
    flood_iter w h fuel mask visited stack = some res →
    res.1 = mask := by
  intro fuel
  induction fuel with
  | zero =>
    intro mask visited stack res hinv hrun
    cases stack with
    | nil =>
      simp only [flood_iter, Option.some.injEq] at hrun
      rw [← hrun]
    | cons p rest => simp [flood_iter] at hrun
  | succ fuel ih =>
    intro mask visited stack res hinv hrun
    cases stack with
    | nil =>
      simp only [flood_iter, Option.some.injEq] at hrun
      rw [← hrun]
    | cons p rest =>
      obtain ⟨x, y⟩ := p
      have hhead : mget? mask y x = some false := hinv (x, y) (List.mem_cons_self _ _)
      simp only [flood_iter] at hrun
      cases hv : mget? visited y x with
      | none => rw [hv] at hrun; simp at hrun
      | some v =>
        rw [hv] at hrun
        by_cases hvv : v
        · simp only [hvv, if_true] at hrun
          exact ih mask visited rest res (fun p hp => hinv p (List.mem_cons_of_mem _ hp)) hrun
        · simp only [hvv, if_false, Bool.false_eq_true] at hrun
          rw [hhead] at hrun
          simp only [Bool.false_eq_true, if_false] at hrun
          rw [mset_self mask y x false hhead] at hrun
          cases hn : nbrs w h mask (mset visited y x true) x y with
          | none => rw [hn] at hrun; simp at hrun
          | some adds =>
            rw [hn] at hrun
            refine ih mask (mset visited y x true) (adds ++ rest) res ?_ hrun
            intro p hp
            rcases List.mem_append.mp hp with hp | hp
            · exact nbrs_sound hn p hp
            · exact hinv p (List.mem_cons_of_mem _ hp)

theorem flood_seeds_mask_eq {w h : Nat} : ∀ (seeds : List (Nat × Nat))
    (mask visited : Grid) (res : Grid),
    flood_seeds w h mask visited seeds = some res → res = mask := by
  intro seeds
  induction seeds with
  | nil =>
    intro mask visited res hrun
    simp only [flood_seeds, Option.some.injEq] at hrun
    exact hrun.symm
  | cons p rest ih =>
    intro mask visited res hrun
    obtain ⟨x, y⟩ := p
    simp only [flood_seeds] at hrun
    cases hv : mget? visited y x with
    | none => rw [hv] at hrun; simp at hrun
    | some v =>
      rw [hv] at hrun
      by_cases hvv : v
      · simp only [hvv, if_true] at hrun
        exact ih mask visited res hrun
      · simp only [hvv, if_false, Bool.false_eq_true] at hrun
        cases hm : mget? mask y x with
        | none => rw [hm] at hrun; simp at hrun
        | some mb =>
          rw [hm] at hrun
          by_cases hmb : mb
          · simp only [hmb, if_true] at hrun
            exact ih mask visited res hrun
          · simp only [hmb, if_false, Bool.false_eq_true] at hrun
            cases hit : flood_iter w h (flood_fuel w h) mask visited [(x, y)] with
            | none => rw [hit] at hrun; simp at hrun
            | some mv =>
              rw [hit] at hrun
              obtain ⟨mask1, visited1⟩ := mv
              have hm0 : mget? mask y x = some false := by
                rw [hm]
                simp only [Bool.not_eq_true] at hmb
                rw [hmb]
              have h1 : mask1 = mask := by
                have := flood_iter_mask_eq (w := w) (h := h)
                  (flood_fuel w h) mask visited [(x, y)] (mask1, visited1) ?_ hit
                · exact this
                · intro q hq
                  simp only [List.mem_singleton] at hq
                  subst hq
                  exact hm0
              subst h1
              exact ih mask1 visited1 res hrun

/-- The whole correction pass returns the mask it was given, whenever it
completes at all. -/
theorem flood_fill_background_mask_eq {mask : Grid} {w h : Nat} {res : Grid}
    (hrun : flood_fill_background mask w h = some res) : res = mask := by
  unfold flood_fill_background at hrun
  cases he : edge_seeds w h with
  | none => rw [he] at hrun; simp at hrun
  | some seeds =>
    rw [he] at hrun
    exact flood_seeds_mask_eq seeds mask _ res hrun

/-! ## Concrete inputs used by witnesses and counterexamples -/

/-- A 2×2 image, every pixel `(100, 100, 100, 255)`. -/
def img2 : Image := ⟨2, 2, fun _ _ => ⟨100, 100, 100, 255⟩⟩

/-- A 2×2 image, every pixel `(10, 10, 10, 255)`. -/
def demo_img : Image := ⟨2, 2, fun _ _ => ⟨10, 10, 10, 255⟩⟩

/-- The color of every pixel of `demo_img`. -/
def demo_bg : Pixel := ⟨10, 10, 10, 255⟩

/-! ## Claims about the flood-fill correction pass -/

/-- C3: for every image and background color, the mask produced after
the flood-fill connectivity-correction pass equals, pointwise, the mask
produced by the phase-1 color classification alone: phase 2 only ever
visits cells already classified background (`false`) and re-assigns them
`false`, so it never changes any entry. -/
theorem c3_flood_fill_pass_is_noop (img : Image) (bg : Pixel) (m : Grid)
    (hrun : create_mask img bg = some m) :
    m = create_initial_mask img bg := by
  unfold create_mask at hrun
  exact flood_fill_background_mask_eq hrun

theorem c3_witness :
    create_mask demo_img demo_bg = some [[false, false], [false, false]] ∧
    [[false, false], [false, false]] = create_initial_mask demo_img demo_bg :=
  ⟨by decide, c3_flood_fill_pass_is_noop demo_img demo_bg _ (by decide)⟩

/-- C8: the flood-fill mask correction is idempotent: if the pass sends
`m` to `r`, it also sends `r` to `r`. -/
theorem c8_flood_fill_idempotent (m : Grid) (w h : Nat) (r : Grid)
    (hrun : flood_fill_background m w h = some r) :
    flood_fill_background r w h = some r := by
  obtain rfl := flood_fill_background_mask_eq hrun
  exact hrun

theorem c8_witness : flood_fill_background [[false]] 1 1 = some [[false]] :=
  c8_flood_fill_idempotent [[false]] 1 1 [[false]] (by decide)

/-- C9: the correction pass may only flip entries `true → false`, never
`false → true`: every entry that is `false` before the pass is `false`
after it, and every entry that is `true` after the pass was `true`
before it.  (In fact the pass changes nothing at all, see C3.) -/
theorem c9_flood_fill_monotone (m : Grid) (w h : Nat) (r : Grid)
    (hrun : flood_fill_background m w h = some r) (y x : Nat) :
    (mget? m y x = some false → mget? r y x = some false) ∧
    (mget? r y x = some true → mget? m y x = some true) := by
  obtain rfl := flood_fill_background_mask_eq hrun
  exact ⟨fun hh => hh, fun hh => hh⟩

theorem c9_witness :
    (mget? [[false, true]] 0 0 = some false → mget? [[false, true]] 0 0 = some false) ∧
    (mget? [[false, true]] 0 0 = some true → mget? [[false, true]] 0 0 = some true) :=
  c9_flood_fill_monotone [[false, true]] 2 1 [[false, true]] (by decide) 0 0

/-! ## Degenerate geometry -/

/-- C2 (the code at the claim's inputs): for a width-0, height-1 image
the flood-fill pass hits the `width - 1` `usize` underflow and the
out-of-bounds accesses modelled by `none` (a Rust panic), contradicting
the claim that no out-of-bounds grid indexing occurs; the fully empty
image does yield the empty mask; and for any 2×2 image the corner
sample list is empty, so `detect_background_color` divides by a zero
`total_colors`, contradicting the claim that no division by zero is
performed. -/
theorem c2_degenerate_geometry :
    flood_fill_background [[]] 0 1 = none ∧
    flood_fill_background ([] : Grid) 0 0 = some [] ∧
    corner_colors img2 = [] := by
  exact ⟨by decide, by decide, by decide⟩

/-- C1 (the code at the claim's inputs): the code never clamps the
sample square side to 1.  On a 2×2 image whose every pixel is
`(100, 100, 100, 255)` the side is `min(5, 2/4, 2/4) = 0`, the sample
list is empty, the `f32` mean is `0.0 / 0.0 = NaN`, and `NaN as u8` is
`0`: the sampler returns `(0, 0, 0, 255)` where the claim requires the
mean of a clamped 1×1 corner sample, namely `(100, 100, 100, 255)`. -/
theorem c1_no_sample_clamp :
    sample_size 2 2 = 0 ∧
    detect_background_color img2 = ⟨0, 0, 0, 255⟩ ∧
    detect_background_color img2 ≠ ⟨100, 100, 100, 255⟩ := by
  exact ⟨by decide, by decide, by decide⟩

/-! ## Phase 1: color classification -/

theorem mget?_create_initial_mask (img : Image) (bg : Pixel) {x y : Nat}
    (hx : x < img.width) (hy : y < img.height) :
    mget? (create_initial_mask img bg) y x =
      some (! color_close (img.pixel x y) bg) := by
  unfold mget? create_initial_mask
  rw [List.getElem?_map, List.getElem?_range hy]
  simp [List.getElem?_map, List.getElem?_range hx]

/-- C6: phase 1 classifies a pixel as background (`false`) exactly when
the Euclidean distance between its RGB channels and the background
color's RGB channels (alpha ignored) is at most the tolerance `30.0`,
and as foreground (`true`) otherwise. -/
theorem c6_phase1_euclidean (img : Image) (bg : Pixel) (x y : Nat)
    (hx : x < img.width) (hy : y < img.height) :
    mget? (create_initial_mask img bg) y x = some false ↔
      Real.sqrt ((((img.pixel x y).r : ℝ) - (bg.r : ℝ)) ^ 2 +
                 (((img.pixel x y).g : ℝ) - (bg.g : ℝ)) ^ 2 +
                 (((img.pixel x y).b : ℝ) - (bg.b : ℝ)) ^ 2) ≤ 30 := by
  rw [mget?_create_initial_mask img bg hx hy]
  rw [Real.sqrt_le_left (by norm_num : (0 : ℝ) ≤ 30)]
  constructor
  · intro hsome
    simp only [Option.some.injEq, Bool.not_eq_false'] at hsome
    unfold color_close at hsome
    simp only [decide_eq_true_eq] at hsome
    calc (((img.pixel x y).r : ℝ) - (bg.r : ℝ)) ^ 2 +
        (((img.pixel x y).g : ℝ) - (bg.g : ℝ)) ^ 2 +
        (((img.pixel x y).b : ℝ) - (bg.b : ℝ)) ^ 2
        = ((color_distance_sq (img.pixel x y) bg : ℤ) : ℝ) := by
          unfold color_distance_sq; push_cast; ring
      _ ≤ ((900 : ℤ) : ℝ) := Int.cast_le.mpr hsome
      _ = (30 : ℝ) ^ 2 := by norm_num
  · intro hle
    simp only [Option.some.injEq, Bool.not_eq_false']
    unfold color_close
    simp only [decide_eq_true_eq]
    have : ((color_distance_sq (img.pixel x y) bg : ℤ) : ℝ) ≤ ((900 : ℤ) : ℝ) := by
      calc ((color_distance_sq (img.pixel x y) bg : ℤ) : ℝ)
          = (((img.pixel x y).r : ℝ) - (bg.r : ℝ)) ^ 2 +
            (((img.pixel x y).g : ℝ) - (bg.g : ℝ)) ^ 2 +
            (((img.pixel x y).b : ℝ) - (bg.b : ℝ)) ^ 2 := by
            unfold color_distance_sq; push_cast; ring
        _ ≤ (30 : ℝ) ^ 2 := hle
        _ = ((900 : ℤ) : ℝ) := by norm_num
    exact Int.cast_le.mp this

theorem c6_witness :
    mget? (create_initial_mask demo_img demo_bg) 0 0 = some false ↔
      Real.sqrt ((((demo_img.pixel 0 0).r : ℝ) - ((demo_bg.r : Nat) : ℝ)) ^ 2 +
                 (((demo_img.pixel 0 0).g : ℝ) - ((demo_bg.g : Nat) : ℝ)) ^ 2 +
                 (((demo_img.pixel 0 0).b : ℝ) - ((demo_bg.b : Nat) : ℝ)) ^ 2) ≤ 30 :=
  c6_phase1_euclidean demo_img demo_bg 0 0 (by decide) (by decide)

/-! ## Binary32 rounding -/

theorem rne_intCast (n : ℤ) : rne ((n : ℚ)) = n := by
  unfold rne
  rw [Int.floor_intCast]
  norm_num

theorem rne_le (q : ℚ) : (rne q : ℚ) ≤ q + 1 / 2 := by
  unfold rne
  have hf := Int.floor_le q
  have hc := Int.lt_floor_add_one q
  split
  · linarith
  · split
    · push_cast; linarith
    · split
      · linarith
      · push_cast; linarith

theorem rne_nonneg {q : ℚ} (h : 0 ≤ q) : 0 ≤ rne q := by
  have h0 : 0 ≤ ⌊q⌋ := Int.floor_nonneg.mpr h
  unfold rne
  split
  · exact h0
  · split
    · omega
    · split
      · exact h0
      · omega

theorem int_log_pin {q : ℚ} {e : ℤ} (h0 : 0 < q)
    (h1 : (2 : ℚ) ^ e ≤ q) (h2 : q < (2 : ℚ) ^ (e + 1)) : Int.log 2 q = e := by
  have hb : (1 : ℕ) < 2 := by norm_num
  have hA : e ≤ Int.log 2 q := by
    rw [← Int.zpow_le_iff_le_log hb h0]
    push_cast
    exact h1
  have hB : Int.log 2 q < e + 1 := by
    rw [← Int.lt_zpow_iff_log_lt hb h0]
    push_cast
    exact h2
  omega

theorem int_log_bracket {q : ℚ} (h0 : 0 < q) :
    (2 : ℚ) ^ (Int.log 2 q) ≤ q ∧ q < (2 : ℚ) ^ (Int.log 2 q + 1) := by
  have hA := Int.zpow_log_le_self (b := 2) (by norm_num) h0
  have hB := Int.lt_zpow_succ_log_self (b := 2) (by norm_num) q
  push_cast at hA hB
  exact ⟨hA, hB⟩

theorem rn32_eval {q : ℚ} {e : ℤ} (h1 : (2 : ℚ) ^ e ≤ q) (h2 : q < (2 : ℚ) ^ (e + 1)) :
    rn32 q = ((rne (q / 2 ^ (e - 23)) : ℤ) : ℚ) * 2 ^ (e - 23) := by
  have h0 : 0 < q := lt_of_lt_of_le (by positivity) h1
  unfold rn32
  rw [if_pos h0, int_log_pin h0 h1 h2]

theorem rn32_exact {q : ℚ} {e : ℤ} {k : ℤ} (h1 : (2 : ℚ) ^ e ≤ q)
    (h2 : q < (2 : ℚ) ^ (e + 1)) (hk : q = (k : ℚ) * 2 ^ (e - 23)) : rn32 q = q := by
  rw [rn32_eval h1 h2]
  have hne : ((2 : ℚ) ^ (e - 23)) ≠ 0 := zpow_ne_zero _ (by norm_num)
  have hdiv : q / 2 ^ (e - 23) = (k : ℚ) := by
    rw [hk]; field_simp
  rw [hdiv, rne_intCast, ← hk]

theorem rn32_zero : rn32 0 = 0 := by
  unfold rn32
  norm_num

theorem rn32_one : rn32 1 = 1 := by
  refine rn32_exact (e := 0) (k := 2 ^ 23) (by norm_num) (by norm_num) ?_
  norm_num

theorem rn32_nonneg (q : ℚ) : 0 ≤ rn32 q := by
  unfold rn32
  split
  · next h0 =>
    have hm : (0 : ℚ) ≤ q / 2 ^ (Int.log 2 q - 23) := by positivity
    have := rne_nonneg hm
    positivity
  · exact le_refl _

theorem rn32_le_one {q : ℚ} (h : q ≤ 1) : rn32 q ≤ 1 := by
  by_cases h0 : 0 < q
  · rcases eq_or_lt_of_le h with rfl | hlt
    · exact le_of_eq rn32_one
    · obtain ⟨hA, hB⟩ := int_log_bracket h0
      set L := Int.log 2 q with hL
      have hLneg : L + 1 ≤ 0 := by
        by_contra hc
        push_neg at hc
        have h1L : (0 : ℤ) ≤ L := by omega
        have : (1 : ℚ) ≤ (2 : ℚ) ^ L := one_le_zpow₀ (by norm_num) h1L
        linarith
      rw [rn32_eval hA hB]
      have hmlt : q / 2 ^ (L - 23) < 2 ^ 24 := by
        rw [div_lt_iff₀ (by positivity)]
        calc q < (2 : ℚ) ^ (L + 1) := hB
          _ = 2 ^ 24 * 2 ^ (L - 23) := by
            rw [← zpow_natCast, ← zpow_add₀ (by norm_num : (2:ℚ) ≠ 0)]
            congr 1
            omega
      have hrne : rne (q / 2 ^ (L - 23)) ≤ 2 ^ 24 := by
        have := rne_le (q / 2 ^ (L - 23))
        have hc : (rne (q / 2 ^ (L - 23)) : ℚ) < (2 : ℚ) ^ 24 + 1 := by linarith
        have : rne (q / 2 ^ (L - 23)) < 2 ^ 24 + 1 := by exact_mod_cast hc
        omega
      calc ((rne (q / 2 ^ (L - 23)) : ℤ) : ℚ) * 2 ^ (L - 23)
          ≤ ((2 : ℚ) ^ (24 : ℕ)) * 2 ^ (L - 23) := by
            have : ((rne (q / 2 ^ (L - 23)) : ℤ) : ℚ) ≤ ((2 : ℚ) ^ (24 : ℕ)) := by
              exact_mod_cast hrne
            exact mul_le_mul_of_nonneg_right this (by positivity)
        _ = (2 : ℚ) ^ (L + 1) := by
            rw [← zpow_natCast, ← zpow_add₀ (by norm_num : (2:ℚ) ≠ 0)]
            congr 1
            omega
        _ ≤ (2 : ℚ) ^ (0 : ℤ) := by
            exact zpow_le_zpow_right₀ (by norm_num) hLneg
        _ = 1 := by norm_num
  · unfold rn32
    rw [if_neg h0]
    norm_num

theorem rn32_lt_256 {q : ℚ} (h : q ≤ 255) : rn32 q < 256 := by
  by_cases h0 : 0 < q
  · obtain ⟨hA, hB⟩ := int_log_bracket h0
    set L := Int.log 2 q with hL
    have hL7 : L ≤ 7 := by
      by_contra hc
      push_neg at hc
      have h8 : (8 : ℤ) ≤ L := by omega
      have : (2 : ℚ) ^ (8 : ℤ) ≤ (2 : ℚ) ^ L := zpow_le_zpow_right₀ (by norm_num) h8
      have h256 : (256 : ℚ) ≤ q := by
        calc (256 : ℚ) = (2 : ℚ) ^ (8 : ℤ) := by norm_num
          _ ≤ (2 : ℚ) ^ L := this
          _ ≤ q := hA
      linarith
    rw [rn32_eval hA hB]
    have hq : q / 2 ^ (L - 23) * 2 ^ (L - 23) = q := by
      field_simp
    have hrle := rne_le (q / 2 ^ (L - 23))
    calc ((rne (q / 2 ^ (L - 23)) : ℤ) : ℚ) * 2 ^ (L - 23)
        ≤ (q / 2 ^ (L - 23) + 1 / 2) * 2 ^ (L - 23) := by
          exact mul_le_mul_of_nonneg_right hrle (by positivity)
      _ = q + 2 ^ (L - 23) / 2 := by
          rw [add_mul, hq]
          ring
      _ ≤ 255 + 1 / 131072 := by
          have hp : (2 : ℚ) ^ (L - 23) ≤ (2 : ℚ) ^ ((7 : ℤ) - 23) :=
            zpow_le_zpow_right₀ (by norm_num) (by omega)
          have hval : (2 : ℚ) ^ ((7 : ℤ) - 23) = 1 / 65536 := by norm_num
          rw [hval] at hp
          linarith
      _ < 256 := by norm_num
  · unfold rn32
    rw [if_neg h0]
    norm_num

theorem rn32_onehalf : rn32 ((1 : ℚ) / 2) = 1 / 2 :=
  rn32_exact (e := -1) (k := 2 ^ 23) (by norm_num) (by norm_num) (by norm_num)

/-! ## Edge feathering -/

theorem sum_Icc2 (f : ℤ → ℕ) :
    (∑ i ∈ Finset.Icc (-2 : ℤ) 2, f i) =
      ((List.range 5).map fun j => f ((j : ℤ) - 2)).sum := by
  have hIcc : Finset.Icc (-2 : ℤ) 2 =
      insert (-2) (insert (-1) (insert 0 (insert 1 {2}))) := by decide
  have hr : List.range 5 = [0, 1, 2, 3, 4] := by rfl
  rw [hIcc, hr]
  rw [Finset.sum_insert (by decide), Finset.sum_insert (by decide),
    Finset.sum_insert (by decide), Finset.sum_insert (by decide),
    Finset.sum_singleton]
  norm_num

theorem total_count_eq_card (w h x y : Nat) :
    total_count w h x y = (window_cells w h x y).card := by
  unfold window_cells
  rw [Finset.card_filter, Finset.sum_product]
  rw [sum_Icc2]
  simp only [sum_Icc2]
  rfl

theorem background_count_eq_card (mask : Nat → Nat → Bool) (w h x y : Nat) :
    background_count mask w h x y = (window_bg_cells mask w h x y).card := by
  unfold window_bg_cells
  rw [Finset.card_filter, Finset.sum_product]
  rw [sum_Icc2]
  simp only [sum_Icc2]
  rfl

theorem window_cells_card_ne_zero (w h x y : Nat) (hx : x < w) (hy : y < h) :
    (window_cells w h x y).card ≠ 0 := by
  have hmem : ((0 : ℤ), (0 : ℤ)) ∈ window_cells w h x y := by
    unfold window_cells
    rw [Finset.mem_filter, Finset.mem_product]
    refine ⟨⟨?_, ?_⟩, ?_⟩
    · simp
    · simp
    · simp only [in_bounds, add_zero]
      omega
  exact Finset.card_ne_zero_of_mem hmem

/-- C7, amended: for an in-bounds coordinate, a background-classified
centre gets feather opacity `0.0` without examining its window; a
foreground centre gets `max(0.0, RN32(1.0 - RN32(bc / tc)))` — the
claim's formula with the two binary32 roundings the code performs —
with both counts ranging over the radius-2 window clipped to the image;
and a foreground centre with no background cell in its window still
gets opacity exactly `1.0` (that computation is float-exact). -/
theorem c7_edge_alpha (mask : Nat → Nat → Bool) (w h x y : Nat)
    (hx : x < w) (hy : y < h) :
    (mask y x = false → calculate_edge_alpha mask x y w h = 0) ∧
    (mask y x = true →
      calculate_edge_alpha mask x y w h =
        max 0 (rn32 (1 - rn32 (((window_bg_cells mask w h x y).card : ℚ) /
                   ((window_cells w h x y).card : ℚ)))) ∧
      ((window_bg_cells mask w h x y).card = 0 →
        calculate_edge_alpha mask x y w h = 1)) := by
  constructor
  · intro hbg
    unfold calculate_edge_alpha
    rw [if_pos hbg]
  · intro hfg
    have htc := total_count_eq_card w h x y
    have hbc := background_count_eq_card mask w h x y
    have hne : total_count w h x y ≠ 0 := by
      rw [htc]; exact window_cells_card_ne_zero w h x y hx hy
    have hval : calculate_edge_alpha mask x y w h =
        max (rn32 (1 - rn32 (((window_bg_cells mask w h x y).card : ℚ) /
                 ((window_cells w h x y).card : ℚ)))) 0 := by
      unfold calculate_edge_alpha
      rw [if_neg (by rw [hfg]; exact fun hc => by cases hc)]
      rw [if_neg hne, htc, hbc]
    constructor
    · rw [hval, max_comm]
    · intro h0
      rw [hval, h0]
      norm_num [rn32_zero, rn32_one]

/-- The all-foreground mask used by the C7 witness. -/
def demo_mask : Nat → Nat → Bool := fun _ _ => true

theorem c7_witness :
    (demo_mask 2 2 = false → calculate_edge_alpha demo_mask 2 2 5 5 = 0) ∧
    (demo_mask 2 2 = true →
      calculate_edge_alpha demo_mask 2 2 5 5 =
        max 0 (rn32 (1 - rn32 (((window_bg_cells demo_mask 5 5 2 2).card : ℚ) /
                   ((window_cells 5 5 2 2).card : ℚ)))) ∧
      ((window_bg_cells demo_mask 5 5 2 2).card = 0 →
        calculate_edge_alpha demo_mask 2 2 5 5 = 1)) :=
  c7_edge_alpha demo_mask 5 5 2 2 (by decide) (by decide)

/-- The mask used against C7 as stated: at the centre `(2,2)` of a 5×5
image its radius-2 window holds all 25 cells, 15 of them background
(cells numbered `5*y + x` in `0..16` except `12`, the centre). -/
def cx_mask : Nat → Nat → Bool := fun y x =>
  ! decide (5 * y + x < 16 ∧ 5 * y + x ≠ 12)

theorem rne_c7ratio : rne ((50331648 : ℚ) / 5) = 10066330 := by
  have hfl : ⌊(50331648 : ℚ) / 5⌋ = 10066329 := by norm_num
  unfold rne
  rw [hfl]
  norm_num

theorem rn32_c7ratio : rn32 ((15 : ℚ) / 25) = 10066330 / 2 ^ 24 := by
  have h : (15 : ℚ) / 25 = 3 / 5 := by norm_num
  rw [h]
  rw [rn32_eval (e := -1) (by norm_num) (by norm_num)]
  have hdiv : (3 : ℚ) / 5 / 2 ^ ((-1 : ℤ) - 23) = (50331648 : ℚ) / 5 := by
    norm_num
  rw [hdiv, rne_c7ratio]
  norm_num

theorem rn32_c7diff : rn32 (1 - (10066330 : ℚ) / 2 ^ 24) = 3355443 / 8388608 := by
  have h : 1 - (10066330 : ℚ) / 2 ^ 24 = 3355443 / 8388608 := by norm_num
  rw [h]
  exact rn32_exact (e := -2) (k := 13421772) (by norm_num) (by norm_num) (by norm_num)

theorem cx_alpha : calculate_edge_alpha cx_mask 2 2 5 5 = 3355443 / 8388608 := by
  have htc : total_count 5 5 2 2 = 25 := by decide
  have hbc : background_count cx_mask 5 5 2 2 = 15 := by decide
  simp only [calculate_edge_alpha]
  rw [if_neg (by decide), if_neg (by rw [htc]; decide), htc, hbc]
  push_cast
  rw [rn32_c7ratio, rn32_c7diff]
  norm_num

/-- C7 as stated is false: the program's opacity is the binary32 value
`3355443/8388608 = 0.39999997615814209…`, not the exact
`max(0, 1 - 15/25) = 2/5` the claim asserts (the division `15/25` and
the subtraction each round). -/
theorem c7_counterexample :
    cx_mask 2 2 = true ∧
    (window_bg_cells cx_mask 5 5 2 2).card = 15 ∧
    (window_cells 5 5 2 2).card = 25 ∧
    calculate_edge_alpha cx_mask 2 2 5 5 ≠ max 0 (1 - (15 : ℚ) / 25) := by
  refine ⟨by decide, ?_, ?_, ?_⟩
  · rw [← background_count_eq_card]
    decide
  · rw [← total_count_eq_card]
    decide
  · rw [cx_alpha]
    norm_num

/-! ## Mask application -/

theorem calculate_edge_alpha_bounds (mask : Nat → Nat → Bool) (x y w h : Nat) :
    0 ≤ calculate_edge_alpha mask x y w h ∧ calculate_edge_alpha mask x y w h ≤ 1 := by
  simp only [calculate_edge_alpha]
  split
  · norm_num
  · split
    · norm_num
    · constructor
      · exact le_max_right _ _
      · apply max_le
        · have hq : (0 : ℚ) ≤ rn32 ((background_count mask w h x y : ℚ) /
              (total_count w h x y : ℚ)) := rn32_nonneg _
          exact rn32_le_one (by linarith)
        · norm_num

/-- C4, amended: a background cell gets output alpha exactly `0`; a
foreground cell gets the binary32 product
`RN32(originalAlpha * featherOpacity)` truncated toward zero (the Rust
`as u8` cast) — not rounded to nearest — and the cast never saturates,
so truncation is plain floor. -/
theorem c4_apply_mask_alpha (img : Image) (mask : Nat → Nat → Bool) (x y : Nat)
    (ha : (img.pixel x y).a ≤ 255) :
    (mask y x = false → ((apply_mask img mask).pixel x y).a = 0) ∧
    (mask y x = true →
      ((apply_mask img mask).pixel x y).a =
        Int.toNat ⌊rn32 (((img.pixel x y).a : ℚ) *
          calculate_edge_alpha mask x y img.width img.height)⌋) := by
  constructor
  · intro hm
    simp [apply_mask, hm]
  · intro hm
    obtain ⟨h0, h1⟩ := calculate_edge_alpha_bounds mask x y img.width img.height
    have hq255 : ((img.pixel x y).a : ℚ) *
        calculate_edge_alpha mask x y img.width img.height ≤ 255 := by
      calc ((img.pixel x y).a : ℚ) * calculate_edge_alpha mask x y img.width img.height
          ≤ ((img.pixel x y).a : ℚ) * 1 := mul_le_mul_of_nonneg_left h1 (by positivity)
        _ = ((img.pixel x y).a : ℚ) := mul_one _
        _ ≤ 255 := by exact_mod_cast ha
    have hr0 : 0 ≤ rn32 (((img.pixel x y).a : ℚ) *
        calculate_edge_alpha mask x y img.width img.height) := rn32_nonneg _
    have hr256 : rn32 (((img.pixel x y).a : ℚ) *
        calculate_edge_alpha mask x y img.width img.height) < 256 := rn32_lt_256 hq255
    have hfl : Int.toNat ⌊rn32 (((img.pixel x y).a : ℚ) *
        calculate_edge_alpha mask x y img.width img.height)⌋ ≤ 255 := by
      have h2 : ⌊rn32 (((img.pixel x y).a : ℚ) *
          calculate_edge_alpha mask x y img.width img.height)⌋ < 256 :=
        Int.floor_lt.mpr (by exact_mod_cast hr256)
      omega
    simp only [apply_mask, hm, Bool.true_eq_false, if_false, f32_to_u8]
    rw [if_neg (not_lt.mpr hr0)]
    exact min_eq_right hfl

/-- The checkerboard mask (8 background cells among the 16 window cells
of `(1,1)` in a 4×4 image) used against the rounding claim. -/
def ck_mask : Nat → Nat → Bool := fun y x => decide ((x + y) % 2 = 0)

/-- A 4×4 image with full original alpha. -/
def ck_img : Image := ⟨4, 4, fun _ _ => ⟨9, 9, 9, 255⟩⟩

theorem ck_alpha : calculate_edge_alpha ck_mask 1 1 4 4 = 1 / 2 := by
  have htc : total_count 4 4 1 1 = 16 := by decide
  have hbc : background_count ck_mask 4 4 1 1 = 8 := by decide
  simp only [calculate_edge_alpha]
  rw [if_neg (by decide), if_neg (by rw [htc]; decide), htc, hbc]
  push_cast
  rw [show ((8 : ℚ) / 16) = 1 / 2 by norm_num, rn32_onehalf,
    show (1 : ℚ) - 1 / 2 = 1 / 2 by norm_num, rn32_onehalf]
  norm_num

theorem rn32_half255 : rn32 ((255 : ℚ) / 2) = 255 / 2 :=
  rn32_exact (e := 6) (k := 16711680) (by norm_num) (by norm_num) (by norm_num)

/-- C4 as stated is false: at the foreground pixel `(1,1)` of `ck_img`
under `ck_mask` the feather opacity is `1/2`, the original alpha `255`,
the code produces `(255 * 0.5) as u8 = 127`, while
`round(255 * 0.5) = 128`. -/
theorem c4_counterexample :
    ck_mask 1 1 = true ∧
    ((apply_mask ck_img ck_mask).pixel 1 1).a = 127 ∧
    Int.toNat (round (((ck_img.pixel 1 1).a : ℚ) *
      calculate_edge_alpha ck_mask 1 1 ck_img.width ck_img.height)) = 128 ∧
    (127 : Nat) ≠ 128 := by
  refine ⟨by decide, ?_, ?_, by decide⟩
  · show ((apply_mask ck_img ck_mask).pixel 1 1).a = 127
    simp only [apply_mask, ck_img]
    rw [if_neg (by decide)]
    show f32_to_u8 (rn32 ((255 : ℚ) * calculate_edge_alpha ck_mask 1 1 4 4)) = 127
    rw [ck_alpha]
    rw [show (255 : ℚ) * (1 / 2) = 255 / 2 by norm_num, rn32_half255]
    simp only [f32_to_u8]
    norm_num
    rfl
  · have ha : ((ck_img.pixel 1 1).a : ℚ) = (255 : ℚ) := by norm_num [ck_img]
    have hw : ck_img.width = 4 := rfl
    have hh : ck_img.height = 4 := rfl
    rw [ha, hw, hh, ck_alpha]
    norm_num [round_eq]
    rfl

theorem c4_witness :
    (ck_mask 1 1 = false → ((apply_mask ck_img ck_mask).pixel 1 1).a = 0) ∧
    (ck_mask 1 1 = true →
      ((apply_mask ck_img ck_mask).pixel 1 1).a =
        Int.toNat ⌊rn32 (((ck_img.pixel 1 1).a : ℚ) *
          calculate_edge_alpha ck_mask 1 1 ck_img.width ck_img.height)⌋) :=
  c4_apply_mask_alpha ck_img ck_mask 1 1 (by decide)

/-- C10: the applicator's output buffer has the input's dimensions and
preserves the R, G, B channels at every coordinate; only alpha may
differ. -/
theorem c10_apply_mask_frame (img : Image) (mask : Nat → Nat → Bool) :
    (apply_mask img mask).width = img.width ∧
    (apply_mask img mask).height = img.height ∧
    ∀ x y, ((apply_mask img mask).pixel x y).r = (img.pixel x y).r ∧
           ((apply_mask img mask).pixel x y).g = (img.pixel x y).g ∧
           ((apply_mask img mask).pixel x y).b = (img.pixel x y).b := by
  refine ⟨rfl, rfl, fun x y => ?_⟩
  by_cases hm : mask y x = false <;> simp [apply_mask, hm]

/-! ## Uniform images -/

theorem list_map_sum_const {α : Type} (l : List α) (f : α → Nat) (v : Nat)
    (hf : ∀ a ∈ l, f a = v) : (l.map f).sum = l.length * v := by
  induction l with
  | nil => simp
  | cons hd tl ih =>
    simp only [List.map_cons, List.sum_cons, List.length_cons]
    rw [hf hd (List.mem_cons_self _ _), ih (fun a ha => hf a (List.mem_cons_of_mem _ ha))]
    ring

theorem sample_size_le_width (w h : Nat) : sample_size w h ≤ w :=
  le_trans (le_trans (min_le_left _ _) (min_le_right _ _)) (Nat.div_le_self _ _)

theorem sample_size_le_height (w h : Nat) : sample_size w h ≤ h :=
  le_trans (min_le_right _ _) (Nat.div_le_self _ _)

theorem corner_colors_uniform (img : Image) (c : Pixel)
    (hu : ∀ x < img.width, ∀ y < img.height, img.pixel x y = c) :
    ∀ p ∈ corner_colors img, p = c := by
  intro p hp
  have hsw := sample_size_le_width img.width img.height
  have hsh := sample_size_le_height img.width img.height
  unfold corner_colors at hp
  simp only [List.mem_append, List.mem_flatMap, List.mem_map, List.mem_range] at hp
  rcases hp with ((⟨x, hx, y, hy, hpe⟩ | ⟨i, hi, y, hy, hpe⟩) | ⟨x, hx, j, hj, hpe⟩) |
    ⟨i, hi, j, hj, hpe⟩
  · rw [← hpe]; exact hu _ (by omega) _ (by omega)
  · rw [← hpe]; exact hu _ (by omega) _ (by omega)
  · rw [← hpe]; exact hu _ (by omega) _ (by omega)
  · rw [← hpe]; exact hu _ (by omega) _ (by omega)

theorem one_le_sample_size (w h : Nat) (hw : 4 ≤ w) (hh : 4 ≤ h) :
    1 ≤ sample_size w h := by
  unfold sample_size
  have h1 : 1 ≤ w / 4 := (Nat.one_le_div_iff (by norm_num)).mpr hw
  have h2 : 1 ≤ h / 4 := (Nat.one_le_div_iff (by norm_num)).mpr hh
  exact le_min (le_min (by norm_num) h1) h2

theorem detect_background_color_uniform (img : Image) (c : Pixel)
    (hw : 4 ≤ img.width) (hh : 4 ≤ img.height)
    (hu : ∀ x < img.width, ∀ y < img.height, img.pixel x y = c) :
    detect_background_color img = ⟨c.r, c.g, c.b, 255⟩ := by
  have hall := corner_colors_uniform img c hu
  have hs1 := one_le_sample_size img.width img.height hw hh
  have hmem : img.pixel 0 0 ∈ corner_colors img := by
    unfold corner_colors
    simp only [List.mem_append, List.mem_flatMap, List.mem_map, List.mem_range]
    left; left; left
    exact ⟨0, by omega, 0, by omega, rfl⟩
  have hn : 0 < (corner_colors img).length :=
    List.length_pos.mpr (List.ne_nil_of_mem hmem)
  have hr : ((corner_colors img).map Pixel.r).sum / (corner_colors img).length = c.r := by
    rw [list_map_sum_const _ _ _ (fun p hp => by rw [hall p hp])]
    exact Nat.mul_div_cancel_left _ hn
  have hg : ((corner_colors img).map Pixel.g).sum / (corner_colors img).length = c.g := by
    rw [list_map_sum_const _ _ _ (fun p hp => by rw [hall p hp])]
    exact Nat.mul_div_cancel_left _ hn
  have hb : ((corner_colors img).map Pixel.b).sum / (corner_colors img).length = c.b := by
    rw [list_map_sum_const _ _ _ (fun p hp => by rw [hall p hp])]
    exact Nat.mul_div_cancel_left _ hn
  simp only [detect_background_color]
  rw [hr, hg, hb]

theorem color_close_self (c : Pixel) : color_close c ⟨c.r, c.g, c.b, 255⟩ = true := by
  unfold color_close color_distance_sq
  simp

theorem mask_fn_eq {m : Grid} {y x : Nat} {b : Bool}
    (h : mget? m y x = some b) : mask_fn m y x = b := by
  unfold mget? at h
  unfold mask_fn
  cases hy : m[y]? with
  | none => rw [hy] at h; simp at h
  | some row =>
    rw [hy] at h
    simp only [Option.some_bind] at h
    simp only [List.getD_eq_getElem?_getD, hy, Option.getD_some, h]

/-- C5, amended: for every uniform image of width and height at least 4
(so that the unclamped corner sample square is non-empty), the sampler
returns exactly the uniform color's RGB values with alpha 255, every
entry of the completed mask is background (`false`), and every in-bounds
pixel of the output image has alpha 0. -/
theorem c5_uniform_image (img : Image) (c : Pixel)
    (hw : 4 ≤ img.width) (hh : 4 ≤ img.height)
    (hu : ∀ x < img.width, ∀ y < img.height, img.pixel x y = c) :
    detect_background_color img = ⟨c.r, c.g, c.b, 255⟩ ∧
    (∀ m, create_mask img (detect_background_color img) = some m →
      ∀ y < img.height, ∀ x < img.width, mget? m y x = some false) ∧
    (∀ out, remove_background img = some out →
      ∀ x < img.width, ∀ y < img.height, (out.pixel x y).a = 0) := by
  have hdet := detect_background_color_uniform img c hw hh hu
  have hentry : ∀ y, y < img.height → ∀ x, x < img.width →
      mget? (create_initial_mask img (detect_background_color img)) y x = some false := by
    intro y hy x hx
    rw [mget?_create_initial_mask img _ hx hy]
    rw [hu x hx y hy, hdet, color_close_self]
    rfl
  refine ⟨hdet, ?_, ?_⟩
  · intro m hm y hy x hx
    unfold create_mask at hm
    obtain rfl := flood_fill_background_mask_eq hm
    exact hentry y hy x hx
  · intro out hout x hx y hy
    unfold remove_background at hout
    cases hcm : create_mask img (detect_background_color img) with
    | none => rw [hcm] at hout; simp at hout
    | some mask =>
      rw [hcm] at hout
      simp only [Option.some.injEq] at hout
      subst hout
      have hmask : mget? mask y x = some false := by
        unfold create_mask at hcm
        obtain rfl := flood_fill_background_mask_eq hcm
        exact hentry y hy x hx
      have hfn : mask_fn mask y x = false := mask_fn_eq hmask
      simp [apply_mask, hfn]

/-- C5 as stated (for arbitrary width, height ≥ 1) is false: `img2` is a
uniform 2×2 image of color `(100, 100, 100, 255)`, yet the sampler's
red channel is `0`, not `100` (the unclamped sample square is empty). -/
theorem c5_counterexample :
    1 ≤ img2.width ∧ 1 ≤ img2.height ∧
    (∀ x y : Nat, img2.pixel x y = ⟨100, 100, 100, 255⟩) ∧
    (detect_background_color img2).r ≠ 100 := by
  exact ⟨by decide, by decide, fun x y => rfl, by decide⟩

/-- A 4×4 image, every pixel `(100, 100, 100, 255)`. -/
def img4 : Image := ⟨4, 4, fun _ _ => ⟨100, 100, 100, 255⟩⟩

theorem c5_witness :
    detect_background_color img4 = ⟨100, 100, 100, 255⟩ ∧
    (∀ m, create_mask img4 (detect_background_color img4) = some m →
      ∀ y < img4.height, ∀ x < img4.width, mget? m y x = some false) ∧
    (∀ out, remove_background img4 = some out →
      ∀ x < img4.width, ∀ y < img4.height, (out.pixel x y).a = 0) :=
  c5_uniform_image img4 ⟨100, 100, 100, 255⟩ (by decide) (by decide) (by decide)
